import Mathlib

/-!
Verification of the windowed scheduling-decision pipeline of
`channel-quality-prediction` (`main.py`).

The pipeline is shallowly embedded: tensors become lists of rationals
(or reals where the source applies transcendental functions), slicing
becomes `List.drop`/`List.take`, `np.sort` becomes `List.insertionSort`,
`np.arange` becomes an explicit arithmetic-progression list, and the
per-element reductions of `torch` become folds and maps.
-/

namespace ChannelQuality

/-! ### AvailabilityMask (`main.py` lines 148-151)

The evaluation loop sorts each score row ascending, takes the entry at
index 8 as a threshold, and marks available every channel whose score is
strictly below the threshold:

    scores_sorted = np.sort(blacklist)
    thresholds = scores_sorted[:, 8]
    thresholds = np.expand_dims(thresholds, axis=1)
    available_channels = blacklist < torch.from_numpy(thresholds)
-/

/-- One row of `available_channels` from `main.py` lines 148-151: sort the
row ascending, read the entry at index 8 as the row's threshold, and keep
the channels whose score is strictly below it. -/
def available_channels (row : List ℚ) : List Bool :=
  let sorted := List.insertionSort (fun a b => a ≤ b) row
  let threshold := sorted.getD 8 0
  row.map (fun x => decide (x < threshold))

/-- Number of `true` entries of a boolean mask row. -/
def trueCount (mask : List Bool) : Nat := mask.count true

lemma count_true_map (p : ℚ → Bool) (l : List ℚ) :
    (l.map (fun x => p x)).count true = l.countP p := by
  induction l with
  | nil => rfl
  | cons a l ih =>
    simp only [List.map_cons, List.count_cons, List.countP_cons, ih]
    cases h : p a <;> simp

lemma sorted_getElem_le {s : List ℚ} (hs : s.Sorted (fun a b => a ≤ b))
    {i j : Nat} (hij : i ≤ j) (hj : j < s.length) : s[i] ≤ s[j] := by
  rcases Nat.lt_or_ge i j with h | h
  · exact List.pairwise_iff_getElem.mp hs i j (Nat.lt_of_lt_of_le h (Nat.le_of_lt hj)) hj h
  · have : i = j := Nat.le_antisymm hij h
    subst this
    exact le_refl _

/-- In a list sorted ascending, fewer than `k` entries can be strictly below
the entry at index `k`. -/
lemma sorted_countP_lt_le {s : List ℚ} (hs : s.Sorted (fun a b => a ≤ b))
    {k : Nat} (hk : k < s.length) :
    s.countP (fun x => decide (x < s.getD k 0)) ≤ k := by
  have ht : s.getD k 0 = s[k] := by
    simp [List.getD_eq_getElem?_getD, List.getElem?_eq_getElem hk]
  rw [ht]
  have hsplit : s.countP (fun x => decide (x < s[k]))
      = (s.take k).countP (fun x => decide (x < s[k]))
        + (s.drop k).countP (fun x => decide (x < s[k])) := by
    rw [← List.countP_append, List.take_append_drop]
  have hdrop : (s.drop k).countP (fun x => decide (x < s[k])) = 0 := by
    rw [List.countP_eq_zero]
    intro a ha
    rcases List.mem_iff_getElem.mp ha with ⟨j, hjlen, rfl⟩
    have hk' : k + j < s.length := by
      have := hjlen
      simp only [List.length_drop] at this
      omega
    rw [List.getElem_drop]
    have : s[k] ≤ s[k + j] := sorted_getElem_le hs (Nat.le_add_right k j) hk'
    simp
    exact this
  have htake : (s.take k).countP (fun x => decide (x < s[k])) ≤ k := by
    calc (s.take k).countP (fun x => decide (x < s[k]))
        ≤ (s.take k).length := List.countP_le_length _
      _ ≤ k := List.length_take_le k s
  omega

/-- Two distinct positions holding the same value force a count of at
least two. -/
lemma two_le_count {l : List ℚ} {i j : Nat} (hij : i < j) (hj : j < l.length)
    (hi : i < l.length) (hv : l[i] = l[j]) : 2 ≤ l.count l[j] := by
  have hsplit : l.count l[j] = (l.take j).count l[j] + (l.drop j).count l[j] := by
    rw [← List.count_append, List.take_append_drop]
  have hmem₁ : l[j] ∈ l.take j := by
    have hlen : i < (l.take j).length := by
      simp only [List.length_take]
      omega
    have : (l.take j)[i] = l[i] := List.getElem_take l
    rw [← hv, ← this]
    exact List.getElem_mem hlen
  have hmem₂ : l[j] ∈ l.drop j := by
    have hlen : 0 < (l.drop j).length := by
      simp only [List.length_drop]
      omega
    have : (l.drop j)[0] = l[j + 0] := List.getElem_drop l
    simp only [Nat.add_zero] at this
    rw [← this]
    exact List.getElem_mem hlen
  have h₁ : 0 < (l.take j).count l[j] := List.count_pos_iff.mpr hmem₁
  have h₂ : 0 < (l.drop j).count l[j] := List.count_pos_iff.mpr hmem₂
  omega

/-- In a list sorted ascending whose entry at index `k` occurs exactly once,
exactly `k` entries are strictly below that entry. -/
lemma sorted_countP_lt_eq {s : List ℚ} (hs : s.Sorted (fun a b => a ≤ b))
    {k : Nat} (hk : k < s.length)
    (hc : s.count (s.getD k 0) = 1) :
    s.countP (fun x => decide (x < s.getD k 0)) = k := by
  have ht : s.getD k 0 = s[k] := by
    simp [List.getD_eq_getElem?_getD, List.getElem?_eq_getElem hk]
  rw [ht] at hc ⊢
  have hle : s.countP (fun x => decide (x < s[k])) ≤ k := by
    have := sorted_countP_lt_le hs hk
    rwa [ht] at this
  have hsplit : s.countP (fun x => decide (x < s[k]))
      = (s.take k).countP (fun x => decide (x < s[k]))
        + (s.drop k).countP (fun x => decide (x < s[k])) := by
    rw [← List.countP_append, List.take_append_drop]
  have htake : (s.take k).countP (fun x => decide (x < s[k])) = (s.take k).length := by
    rw [List.countP_eq_length]
    intro a ha
    rcases List.mem_iff_getElem.mp ha with ⟨i, hilen, rfl⟩
    have hik : i < k := by
      have := hilen
      simp only [List.length_take] at this
      omega
    have hi : i < s.length := Nat.lt_trans hik hk
    have hgt : (s.take k)[i] = s[i] := List.getElem_take s
    rw [hgt]
    have hle' : s[i] ≤ s[k] := sorted_getElem_le hs (Nat.le_of_lt hik) hk
    rcases lt_or_eq_of_le hle' with hlt | heq
    · simp [hlt]
    · exfalso
      have := two_le_count hik hk hi heq
      omega
  have hlen : (s.take k).length = k := by
    simp only [List.length_take]
    omega
  omega

/-- C1: for a 16-channel score row with exclusion budget `k = 8`, the
availability mask of `main.py` lines 148-151 has at most `16 - 8 = 8` true
entries, and exactly 8 when no other score ties the row's threshold value
(the sorted entry at index 8 occurs exactly once in the row). -/
theorem available_channels_budget (row : List ℚ) (hlen : row.length = 16) :
    trueCount (available_channels row) ≤ 8 ∧
    (row.count ((List.insertionSort (fun a b => a ≤ b) row).getD 8 0) = 1 →
      trueCount (available_channels row) = 8) := by
  set s := List.insertionSort (fun a b => a ≤ b) row with hsdef
  have hs : s.Sorted (fun a b => a ≤ b) := List.sorted_insertionSort _ row
  have hperm : s.Perm row := List.perm_insertionSort _ row
  have hslen : s.length = 16 := by rw [hperm.length_eq, hlen]
  have hk : (8 : Nat) < s.length := by omega
  have hcount : trueCount (available_channels row)
      = s.countP (fun x => decide (x < s.getD 8 0)) := by
    unfold trueCount available_channels
    rw [count_true_map]
    exact (hperm.countP_eq _).symm
  constructor
  · rw [hcount]
    exact sorted_countP_lt_le hs hk
  · intro hc
    rw [hcount]
    have hc' : s.count (s.getD 8 0) = 1 := by
      rw [hperm.count_eq]
      exact hc
    exact sorted_countP_lt_eq hs hk hc'

/-- Witness for C1 at a concrete row of 16 pairwise distinct scores. -/
theorem available_channels_budget_witness :
    ([0, 1, 2, 3, 4, 5, 6, 7, 8, 9, 10, 11, 12, 13, 14, 15] : List ℚ).length = 16 ∧
    ([0, 1, 2, 3, 4, 5, 6, 7, 8, 9, 10, 11, 12, 13, 14, 15] : List ℚ).count
      ((List.insertionSort (fun a b => a ≤ b)
        ([0, 1, 2, 3, 4, 5, 6, 7, 8, 9, 10, 11, 12, 13, 14, 15] : List ℚ)).getD 8 0) = 1 ∧
    trueCount (available_channels
      ([0, 1, 2, 3, 4, 5, 6, 7, 8, 9, 10, 11, 12, 13, 14, 15] : List ℚ)) = 8 := by
  refine ⟨by decide, by decide, ?_⟩
  exact (available_channels_budget
    ([0, 1, 2, 3, 4, 5, 6, 7, 8, 9, 10, 11, 12, 13, 14, 15] : List ℚ) (by decide)).2 (by decide)

/-- C10: a row in which all 16 scores are equal is fully blacklisted — the
availability mask computed by `main.py` lines 148-151 has zero true
entries, so the core can hand the Simulator a row with no available
channel. -/
theorem full_blacklist_possible :
    (List.replicate 16 (1 : ℚ)).length = 16 ∧
    trueCount (available_channels (List.replicate 16 (1 : ℚ))) = 0 := by
  decide

/-! ### InterferenceReducer (`main.py` lines 16-22 and 89-90)

    def reduce(values, method, matrix=None):
        if method == 'mean':
            channels_sums = torch.sum(values, dim=0)
            channels_weights = torch.sum(matrix, dim=0)
            return channels_sums / channels_weights
        values, indices = torch.max(values, dim=0)
        return values

and the call site

    error_props_per_channel = torch.mul(error_prop_values.unsqueeze(dim=2), channels_matrix)
    errors_reduced = reduce(error_props_per_channel, reducing_method, channels_matrix)

A single (time, channel) cell is embedded as the list of its values along
the interferer axis (`dim=0`).
-/

/-- The `'mean'` branch of `reduce` at one (time, channel) cell: sum of the
(already attribution-weighted) values over the interferer axis divided by
the sum of the attribution weights. -/
def reduce_mean (values weights : List ℚ) : ℚ := values.sum / weights.sum

/-- `error_props_per_channel` (`main.py` line 89) at one cell: the raw
per-interferer error values multiplied elementwise by the attribution
weights. -/
def error_props_per_channel (errors weights : List ℚ) : List ℚ :=
  List.zipWith (fun e w => e * w) errors weights

/-- `errors_reduced` (`main.py` line 90) for the `'mean'` reducer at one
cell. -/
def errors_reduced_mean (errors weights : List ℚ) : ℚ :=
  reduce_mean (error_props_per_channel errors weights) weights

/-- The weighted average as the spec words it (§4.3): "weighted average
across the interferer axis, weights = attribution matrix". -/
def weightedAverageSpec (errors weights : List ℚ) : ℚ :=
  (List.zipWith (fun e w => e * w) errors weights).sum / weights.sum

lemma zipWith_mul_one_right : ∀ (l : List ℚ),
    List.zipWith (fun e w => e * w) l (List.replicate l.length 1) = l := by
  intro l
  induction l with
  | nil => rfl
  | cons a l ih => simp [List.replicate_succ, ih]

lemma sum_replicate_one (n : Nat) : (List.replicate n (1 : ℚ)).sum = n := by
  induction n with
  | zero => rfl
  | succ n ih => simp [List.replicate_succ, ih, add_comm]

/-- C2: the `'mean'` reduction is the attribution-weighted average of the
per-interferer error values; with all-ones attribution weights it is the
arithmetic mean over the interferer axis. -/
theorem errors_reduced_mean_spec (errors weights : List ℚ)
    (hpos : 0 < weights.sum) :
    errors_reduced_mean errors weights = weightedAverageSpec errors weights ∧
    errors_reduced_mean errors weights * weights.sum
      = (error_props_per_channel errors weights).sum ∧
    (weights = List.replicate errors.length 1 →
      errors_reduced_mean errors weights = errors.sum / errors.length) := by
  refine ⟨rfl, ?_, ?_⟩
  · unfold errors_reduced_mean reduce_mean
    exact div_mul_cancel₀ _ (ne_of_gt hpos)
  · intro hw
    unfold errors_reduced_mean reduce_mean error_props_per_channel
    rw [hw, zipWith_mul_one_right, sum_replicate_one]

/-- Witness for C2 at a concrete two-interferer cell with all-ones
weights. -/
theorem errors_reduced_mean_spec_witness :
    (0 : ℚ) < ([1, 1] : List ℚ).sum ∧
    errors_reduced_mean ([4, 8] : List ℚ) ([1, 1] : List ℚ) = weightedAverageSpec [4, 8] [1, 1] ∧
    errors_reduced_mean ([4, 8] : List ℚ) ([1, 1] : List ℚ) = ([4, 8] : List ℚ).sum / 2 := by
  have h := errors_reduced_mean_spec [4, 8] [1, 1] (by norm_num)
  refine ⟨by norm_num, h.1, ?_⟩
  have := h.2.2 (by rfl)
  simpa using this

/-- The `'max'` branch of `reduce` (`torch.max(values, dim=0)`) at one
(time, channel) cell: the maximum of the values along the interferer
axis. -/
def reduce_max_cell : List ℚ → ℚ
  | [] => 0
  | v :: vs => vs.foldl max v

/-- `torch.max(values, dim=0)` on a whole slice: the tensor is a list of
interferer rows, each row a function from cells to values; the reduction
folds pointwise maxima over the interferer axis. -/
def reduce_max {C : Nat} : List (Fin C → ℚ) → (Fin C → ℚ)
  | [] => fun _ => 0
  | v :: vs => vs.foldl (fun acc r c => max (acc c) (r c)) v

lemma foldl_max_mem : ∀ (vs : List ℚ) (v : ℚ), vs.foldl max v ∈ v :: vs := by
  intro vs
  induction vs with
  | nil => intro v; simp [List.foldl]
  | cons a vs ih =>
    intro v
    have h := ih (max v a)
    show List.foldl max (max v a) vs ∈ v :: a :: vs
    rcases List.mem_cons.mp h with h | h
    · rw [h]
      rcases max_choice v a with hc | hc <;> rw [hc] <;> simp
    · simp [h]

lemma le_foldl_max : ∀ (vs : List ℚ) (v : ℚ),
    v ≤ vs.foldl max v ∧ ∀ x ∈ vs, x ≤ vs.foldl max v := by
  intro vs
  induction vs with
  | nil => intro v; simp [List.foldl]
  | cons a vs ih =>
    intro v
    obtain ⟨h₁, h₂⟩ := ih (max v a)
    refine ⟨le_trans (le_max_left v a) h₁, ?_⟩
    intro x hx
    rcases List.mem_cons.mp hx with rfl | hx
    · exact le_trans (le_max_right v x) h₁
    · exact h₂ x hx

lemma reduce_max_pointwise {C : Nat} : ∀ (vs : List (Fin C → ℚ)) (v : Fin C → ℚ) (c : Fin C),
    (vs.foldl (fun acc r c => max (acc c) (r c)) v) c
      = (vs.map (fun r => r c)).foldl max (v c) := by
  intro vs
  induction vs with
  | nil => intro v c; rfl
  | cons a vs ih =>
    intro v c
    simp only [List.foldl, List.map_cons]
    exact ih (fun c => max (v c) (a c)) c

/-- C3: for a nonempty per-(time, channel, interferer) error tensor, the
`'max'` reduction gives, at every cell, a value attained by some interferer
and at least as large as every interferer's value — the elementwise maximum
across the interferer axis. -/
theorem reduce_max_is_elementwise_max {C : Nat} (t : List (Fin C → ℚ))
    (h : t ≠ []) (c : Fin C) :
    reduce_max t c ∈ t.map (fun r => r c) ∧
    ∀ x ∈ t.map (fun r => r c), x ≤ reduce_max t c := by
  match t, h with
  | v :: vs, _ =>
    have hpt : reduce_max (v :: vs) c = (vs.map (fun r => r c)).foldl max (v c) := by
      unfold reduce_max
      exact reduce_max_pointwise vs v c
    constructor
    · rw [hpt, List.map_cons]
      exact foldl_max_mem (vs.map (fun r => r c)) (v c)
    · intro x hx
      rw [hpt]
      obtain ⟨h₁, h₂⟩ := le_foldl_max (vs.map (fun r => r c)) (v c)
      rcases List.mem_cons.mp hx with rfl | hx
      · exact h₁
      · exact h₂ x hx

/-- Witness for C3 at a concrete two-interferer, two-channel tensor. -/
theorem reduce_max_is_elementwise_max_witness :
    (([![(1 : ℚ), 3], ![2, 0]] : List (Fin 2 → ℚ)) ≠ []) ∧
    (reduce_max ([![(1 : ℚ), 3], ![2, 0]] : List (Fin 2 → ℚ)) 0
      ∈ ([![(1 : ℚ), 3], ![2, 0]] : List (Fin 2 → ℚ)).map (fun r => r 0) ∧
    ∀ x ∈ ([![(1 : ℚ), 3], ![2, 0]] : List (Fin 2 → ℚ)).map (fun r => r 0),
      x ≤ reduce_max ([![(1 : ℚ), 3], ![2, 0]] : List (Fin 2 → ℚ)) 0) := by
  exact ⟨by simp, reduce_max_is_elementwise_max _ (by simp) 0⟩

/-! ### WindowExtractor (`main.py` lines 80-81 and 142-143)

    past_windows = torch.cat([data[index - past_len: index] for index in pivots], dim=1)
    future_windows = torch.cat([data[index: index + future_len] for index in pivots], dim=1)

The series is embedded as a list along the time axis (each element one
time-slice); Python slicing `l[a:b]` becomes `(l.drop a).take (b - a)`,
and the per-pivot windows are kept as a list in pivot order (the `dim=1`
concatenation only re-arranges the sequence axis).
-/

/-- Python slice `l[a : b]` for `0 ≤ a ≤ b` (clamping at the end of the
list, as Python does). -/
def listSlice (l : List ℚ) (a b : Nat) : List ℚ := (l.drop a).take (b - a)

/-- `past_windows` (`main.py` lines 80 and 142): the slices
`series[pivot - pastLen : pivot]`, one per pivot, in pivot order. -/
def past_windows (series : List ℚ) (pivots : List Nat) (pastLen : Nat) : List (List ℚ) :=
  pivots.map (fun p => listSlice series (p - pastLen) p)

/-- `future_windows` (`main.py` lines 81 and 143): the slices
`series[pivot : pivot + futureLen]`, one per pivot, in pivot order. -/
def future_windows (series : List ℚ) (pivots : List Nat) (futureLen : Nat) : List (List ℚ) :=
  pivots.map (fun p => listSlice series p (p + futureLen))

lemma listSlice_length {l : List ℚ} {a b : Nat} (hab : a ≤ b) (hb : b ≤ l.length) :
    (listSlice l a b).length = b - a := by
  unfold listSlice
  simp only [List.length_take, List.length_drop]
  omega

lemma listSlice_getD {l : List ℚ} {a b j : Nat} (hj : j < b - a) (hb : b ≤ l.length) :
    (listSlice l a b).getD j 0 = l.getD (a + j) 0 := by
  have hlen : j < (listSlice l a b).length := by
    rw [listSlice_length (by omega) hb]
    exact hj
  have haj : a + j < l.length := by omega
  have h1 : (listSlice l a b).getD j 0 = (listSlice l a b)[j] := by
    simp [List.getD_eq_getElem?_getD, List.getElem?_eq_getElem hlen]
  have h2 : l.getD (a + j) 0 = l[a + j] := by
    simp [List.getD_eq_getElem?_getD, List.getElem?_eq_getElem haj]
  rw [h1, h2]
  unfold listSlice
  rw [List.getElem_take, List.getElem_drop]

/-- C4: under the boundary invariant (`pastLen ≤ pivot` and
`pivot + futureLen ≤ length`), the window batches of `main.py` lines
80-81/142-143 hold, for the `i`-th pivot `p`, a past window of length
`pastLen` whose `j`-th sample is `series[p - pastLen + j]` — i.e. the
slice `series[p - pastLen : p]` — and a future window of length
`futureLen` whose `j`-th sample is `series[p + j]` — i.e. the slice
`series[p : p + futureLen]` — with no off-by-one. -/
theorem window_extraction_exact (series : List ℚ) (pivots : List Nat)
    (pastLen futureLen : Nat)
    (hb : ∀ p ∈ pivots, pastLen ≤ p ∧ p + futureLen ≤ series.length) :
    ∀ i, i < pivots.length →
      ((past_windows series pivots pastLen).getD i []).length = pastLen ∧
      (∀ j, j < pastLen →
        ((past_windows series pivots pastLen).getD i []).getD j 0
          = series.getD (pivots.getD i 0 - pastLen + j) 0) ∧
      ((future_windows series pivots futureLen).getD i []).length = futureLen ∧
      (∀ j, j < futureLen →
        ((future_windows series pivots futureLen).getD i []).getD j 0
          = series.getD (pivots.getD i 0 + j) 0) := by
  intro i hi
  have hpmem : pivots.getD i 0 ∈ pivots := by
    have : pivots.getD i 0 = pivots[i] := by
      simp [List.getD_eq_getElem?_getD, List.getElem?_eq_getElem hi]
    rw [this]
    exact List.getElem_mem hi
  set p := pivots.getD i 0 with hp
  obtain ⟨hlo, hhi⟩ := hb p hpmem
  have hple : p ≤ series.length := by omega
  have hpast : (past_windows series pivots pastLen).getD i [] = listSlice series (p - pastLen) p := by
    unfold past_windows
    have hmi : i < (pivots.map (fun q => listSlice series (q - pastLen) q)).length := by
      simpa using hi
    have h1 : (pivots.map (fun q => listSlice series (q - pastLen) q)).getD i []
        = (pivots.map (fun q => listSlice series (q - pastLen) q))[i] := by
      simp [List.getD_eq_getElem?_getD, List.getElem?_eq_getElem hmi]
    rw [h1, List.getElem_map]
    rw [hp]
    simp [List.getD_eq_getElem?_getD, List.getElem?_eq_getElem hi]
  have hfut : (future_windows series pivots futureLen).getD i []
      = listSlice series p (p + futureLen) := by
    unfold future_windows
    have hmi : i < (pivots.map (fun q => listSlice series q (q + futureLen))).length := by
      simpa using hi
    have h1 : (pivots.map (fun q => listSlice series q (q + futureLen))).getD i []
        = (pivots.map (fun q => listSlice series q (q + futureLen)))[i] := by
      simp [List.getD_eq_getElem?_getD, List.getElem?_eq_getElem hmi]
    rw [h1, List.getElem_map]
    rw [hp]
    simp [List.getD_eq_getElem?_getD, List.getElem?_eq_getElem hi]
  refine ⟨?_, ?_, ?_, ?_⟩
  · rw [hpast, listSlice_length (by omega) hple]
    omega
  · intro j hj
    rw [hpast, listSlice_getD (by omega) hple]
  · rw [hfut, listSlice_length (by omega) hhi]
    omega
  · intro j hj
    rw [hfut, listSlice_getD (by omega) hhi]

/-- Witness for C4 on a concrete ten-sample series with two pivots. -/
theorem window_extraction_exact_witness :
    (∀ p ∈ ([5, 7] : List Nat), 3 ≤ p ∧ p + 2 ≤ ([0, 1, 2, 3, 4, 5, 6, 7, 8, 9] : List ℚ).length) ∧
    (∀ i, i < ([5, 7] : List Nat).length →
      ((past_windows [0, 1, 2, 3, 4, 5, 6, 7, 8, 9] [5, 7] 3).getD i []).length = 3 ∧
      (∀ j, j < 3 →
        ((past_windows [0, 1, 2, 3, 4, 5, 6, 7, 8, 9] [5, 7] 3).getD i []).getD j 0
          = ([0, 1, 2, 3, 4, 5, 6, 7, 8, 9] : List ℚ).getD (([5, 7] : List Nat).getD i 0 - 3 + j) 0) ∧
      ((future_windows [0, 1, 2, 3, 4, 5, 6, 7, 8, 9] [5, 7] 2).getD i []).length = 2 ∧
      (∀ j, j < 2 →
        ((future_windows [0, 1, 2, 3, 4, 5, 6, 7, 8, 9] [5, 7] 2).getD i []).getD j 0
          = ([0, 1, 2, 3, 4, 5, 6, 7, 8, 9] : List ℚ).getD (([5, 7] : List Nat).getD i 0 + j) 0)) :=
  ⟨by decide, window_extraction_exact [0, 1, 2, 3, 4, 5, 6, 7, 8, 9] [5, 7] 3 2 (by decide)⟩

/-! ### Evaluation pivot grid (`main.py` line 141)

    pivots = np.arange(args.past_window * args.sample_rate, datapoints,
                       args.future_window * args.sample_rate)
-/

/-- `np.arange(start, stop, step)` for naturals and positive step: the
arithmetic progression `start, start + step, …` of all values strictly
below `stop`. -/
def arange (start stop step : Nat) : List Nat :=
  (List.range ((stop - start + step - 1) / step)).map (fun i => start + i * step)

/-- The evaluation pivot grid of `main.py` line 141 (lengths given in
samples). -/
def pivots_grid (pastLen datapoints futureLen : Nat) : List Nat :=
  arange pastLen datapoints futureLen

lemma mem_pivots_grid {pastLen datapoints futureLen p : Nat} :
    p ∈ pivots_grid pastLen datapoints futureLen ↔
      ∃ i, i < (datapoints - pastLen + futureLen - 1) / futureLen ∧
        p = pastLen + i * futureLen := by
  unfold pivots_grid arange
  simp only [List.mem_map, List.mem_range]
  constructor
  · rintro ⟨i, hi, rfl⟩
    exact ⟨i, hi, rfl⟩
  · rintro ⟨i, hi, rfl⟩
    exact ⟨i, hi, rfl⟩

lemma mul_lt_of_lt_ceilDiv {d fl i : Nat} (hfl : 0 < fl)
    (hi : i < (d + fl - 1) / fl) : i * fl < d := by
  have h2 : (i + 1) * fl ≤ d + fl - 1 := (Nat.le_div_iff_mul_le hfl).mp hi
  rw [Nat.succ_mul] at h2
  omega

lemma lt_ceilDiv_of_mul_lt {d fl i : Nat} (hfl : 0 < fl)
    (hi : i * fl < d) : i < (d + fl - 1) / fl := by
  have h2 : (i + 1) * fl ≤ d + fl - 1 := by
    rw [Nat.succ_mul]
    omega
  exact (Nat.le_div_iff_mul_le hfl).mpr h2

/-- C5 counterexample: for `datapoints = 12`, `pastLen = 3`,
`futureLen = 5` the grid is `[3, 8]` and the pivot `8` exceeds
`datapoints − futureLen = 7`, refuting the claimed bound for arbitrary
parameters. -/
theorem pivots_grid_bound_fails :
    pivots_grid 3 12 5 = [3, 8] ∧
    ¬ (∀ p ∈ pivots_grid 3 12 5, p ≤ 12 - 5) := by
  constructor
  · rfl
  · decide

/-- C5 (amended): the evaluation pivot grid is the arithmetic sequence
`pastLen, pastLen + futureLen, pastLen + 2·futureLen, …` of values
strictly below `datapoints`; every time-step in `[pastLen, datapoints)` is
covered by exactly one pivot's future window (no gaps, no overlap); and
whenever `futureLen` divides `datapoints − pastLen` (as in the
`datapoints = 1000`, `pastLen = futureLen = 50` example) no pivot exceeds
`datapoints − futureLen`. -/
theorem pivots_grid_props (pastLen datapoints futureLen : Nat)
    (hfl : 0 < futureLen) :
    (∀ p ∈ pivots_grid pastLen datapoints futureLen, pastLen ≤ p ∧ p < datapoints) ∧
    (∀ i, i < (pivots_grid pastLen datapoints futureLen).length →
      (pivots_grid pastLen datapoints futureLen).getD i 0 = pastLen + i * futureLen) ∧
    (∀ t, pastLen ≤ t → t < datapoints →
      ∃! p, p ∈ pivots_grid pastLen datapoints futureLen ∧ p ≤ t ∧ t < p + futureLen) ∧
    (futureLen ∣ (datapoints - pastLen) →
      ∀ p ∈ pivots_grid pastLen datapoints futureLen, p ≤ datapoints - futureLen) := by
  refine ⟨?_, ?_, ?_, ?_⟩
  · intro p hp
    rcases mem_pivots_grid.mp hp with ⟨i, hi, rfl⟩
    have := mul_lt_of_lt_ceilDiv hfl hi
    omega
  · intro i hi
    unfold pivots_grid arange at hi ⊢
    simp only [List.length_map, List.length_range] at hi
    have hmi : i < ((List.range ((datapoints - pastLen + futureLen - 1) / futureLen)).map
        (fun j => pastLen + j * futureLen)).length := by
      simpa using hi
    rw [List.getD_eq_getElem?_getD, List.getElem?_eq_getElem hmi]
    simp

  · intro t hlo hhi
    have hmod := Nat.div_add_mod (t - pastLen) futureLen
    have hmlt : (t - pastLen) % futureLen < futureLen := Nat.mod_lt _ hfl
    set q := (t - pastLen) / futureLen with hq
    have hqle : futureLen * q ≤ t - pastLen := by omega
    have hqlt : q * futureLen < datapoints - pastLen := by
      have : q * futureLen = futureLen * q := Nat.mul_comm _ _
      omega
    refine ⟨pastLen + q * futureLen, ⟨?_, ?_, ?_⟩, ?_⟩
    · exact mem_pivots_grid.mpr ⟨q, lt_ceilDiv_of_mul_lt hfl hqlt, rfl⟩
    · have : q * futureLen = futureLen * q := Nat.mul_comm _ _
      omega
    · have : q * futureLen = futureLen * q := Nat.mul_comm _ _
      omega
    · rintro p' ⟨hp', hple, hplt⟩
      rcases mem_pivots_grid.mp hp' with ⟨i, hi, rfl⟩
      have h1 : i * futureLen ≤ t - pastLen := by omega
      have h2 : t - pastLen < (i + 1) * futureLen := by
        rw [Nat.succ_mul]
        omega
      have : (t - pastLen) / futureLen = i := Nat.div_eq_of_lt_le h1 h2
      rw [← hq] at this
      rw [this]
  · intro hdvd p hp
    rcases mem_pivots_grid.mp hp with ⟨i, hi, rfl⟩
    obtain ⟨c, hc⟩ := hdvd
    have hcomm : c * futureLen = futureLen * c := Nat.mul_comm _ _
    have hn : (datapoints - pastLen + futureLen - 1) / futureLen = c := by
      rw [hc]
      rw [show futureLen * c + futureLen - 1 = futureLen * c + (futureLen - 1) by omega]
      rw [Nat.mul_add_div hfl]
      rw [Nat.div_eq_of_lt (by omega : futureLen - 1 < futureLen)]
      omega
    rw [hn] at hi
    have hmono : i * futureLen ≤ (c - 1) * futureLen :=
      Nat.mul_le_mul_right futureLen (by omega)
    have hsub : (c - 1) * futureLen = c * futureLen - 1 * futureLen := Nat.sub_mul c 1 futureLen
    rw [Nat.one_mul] at hsub
    have hfc : futureLen * 1 ≤ futureLen * c := Nat.mul_le_mul_left futureLen (by omega)
    rw [Nat.mul_one] at hfc
    omega

/-- Witness for C5 at the spec's example `datapoints = 1000`,
`pastLen = futureLen = 50`. -/
theorem pivots_grid_props_witness :
    0 < 50 ∧
    ((∀ p ∈ pivots_grid 50 1000 50, 50 ≤ p ∧ p < 1000) ∧
    (∀ i, i < (pivots_grid 50 1000 50).length →
      (pivots_grid 50 1000 50).getD i 0 = 50 + i * 50) ∧
    (∀ t, 50 ≤ t → t < 1000 →
      ∃! p, p ∈ pivots_grid 50 1000 50 ∧ p ≤ t ∧ t < p + 50) ∧
    (50 ∣ (1000 - 50) →
      ∀ p ∈ pivots_grid 50 1000 50, p ≤ 1000 - 50)) :=
  ⟨by decide, pivots_grid_props 50 1000 50 (by decide)⟩

/-! ### Training pivot sampling (`main.py` lines 60-62 and 79-81)

    train_samples_cutoff = args.train_split * args.sample_rate
    training_data = data[:train_samples_cutoff]
    ...
    random_indices = np.random.randint(args.past_window * args.sample_rate,
        int(0.80 * datapoints) - args.future_window * args.sample_rate, args.batch_size)
    past_windows = torch.cat([training_data[index - past_len: index] ...], dim=1)
    future_windows = torch.cat([training_data[index: index + future_len] ...], dim=1)

`np.random.randint(low, high, n)` returns values in `[low, high)`; the
embedding therefore quantifies over an arbitrary pivot in that interval.
Window lengths are given in samples (`past_window * sample_rate` etc.),
and `int(0.80 * datapoints)` is embedded as `4 * datapoints / 5`.
-/

/-- `training_data = data[:train_samples_cutoff]` (`main.py` line 61). -/
def training_data (data : List ℚ) (cutoff : Nat) : List ℚ := data.take cutoff

/-- `int(0.80 * datapoints)` (`main.py` line 79). -/
def eighty_percent (datapoints : Nat) : Nat := 4 * datapoints / 5

/-- C6 counterexample: with `datapoints = 20`, a training cutoff of 10
samples, `pastLen = futureLen = 2`, the pivot `13` lies in the sampling
interval `[2, int(0.8·20) − 2) = [2, 14)` yet indexes past the training
portion actually sliced: its future window `training_data[13:15]` is empty
instead of 2 samples long, refuting the claim as stated. -/
theorem training_pivot_unsafe :
    (2 ≤ 13 ∧ 13 < eighty_percent 20 - 2) ∧
    ((List.range 20).map (fun n => (n : ℚ))).length = 20 ∧
    (listSlice (training_data ((List.range 20).map (fun n => (n : ℚ))) 10) 13 (13 + 2)).length
      ≠ 2 := by
  decide

/-- C6 (amended): provided the 80% sampling bound does not pass the
training cutoff (`int(0.8·datapoints) ≤ train_split·sample_rate`, which
holds for the intended configuration), every pivot the sampler can return
satisfies the boundary invariant with respect to the training portion
actually sliced, and the past and future windows both come out at full
length. -/
theorem training_pivot_safe (data : List ℚ) (datapoints cutoff pastLen futureLen p : Nat)
    (hdp : data.length = datapoints)
    (hcov : eighty_percent datapoints ≤ cutoff)
    (hlo : pastLen ≤ p) (hhi : p < eighty_percent datapoints - futureLen) :
    pastLen ≤ p ∧ p + futureLen ≤ (training_data data cutoff).length ∧
    (listSlice (training_data data cutoff) (p - pastLen) p).length = pastLen ∧
    (listSlice (training_data data cutoff) p (p + futureLen)).length = futureLen := by
  have hele : eighty_percent datapoints ≤ datapoints := by
    unfold eighty_percent
    have h5 : 4 * datapoints ≤ 5 * datapoints := by omega
    have hdiv : 4 * datapoints / 5 ≤ 5 * datapoints / 5 := Nat.div_le_div_right h5
    rwa [Nat.mul_div_cancel_left _ (by omega : 0 < 5)] at hdiv
  have htl : (training_data data cutoff).length = min cutoff datapoints := by
    unfold training_data
    simp [List.length_take, hdp]
  have hin : p + futureLen ≤ (training_data data cutoff).length := by
    rw [htl]
    have : p + futureLen < eighty_percent datapoints := by omega
    omega
  refine ⟨hlo, hin, ?_, ?_⟩
  · rw [listSlice_length (by omega) (by omega)]
    omega
  · rw [listSlice_length (by omega) (by omega)]
    omega

/-- Witness for C6 on a concrete configuration where the 80% bound stays
inside the training cutoff. -/
theorem training_pivot_safe_witness :
    (((List.range 20).map (fun n => (n : ℚ))).length = 20 ∧
      eighty_percent 20 ≤ 16 ∧ 2 ≤ 10 ∧ 10 < eighty_percent 20 - 2) ∧
    (2 ≤ 10 ∧
      10 + 2 ≤ (training_data ((List.range 20).map (fun n => (n : ℚ))) 16).length ∧
      (listSlice (training_data ((List.range 20).map (fun n => (n : ℚ))) 16) (10 - 2) 10).length = 2 ∧
      (listSlice (training_data ((List.range 20).map (fun n => (n : ℚ))) 16) 10 (10 + 2)).length = 2) :=
  ⟨by decide, training_pivot_safe _ 20 16 2 2 10 (by decide) (by decide) (by decide) (by decide)⟩

/-! ### ObjectiveComposer (`main.py` lines 65, 68 and 92-97)

    criterion = nn.BCELoss()
    models = {'mean': (0.05, Network(...)), 'max': (0.55, Network(...))}
    ...
    whitelist = torch.ones_like(blacklist) - blacklist
    outputs = torch.mul(errors_reduced, whitelist)
    desired_outputs = torch.zeros_like(outputs)
    cross_entropy_loss = criterion(outputs, desired_outputs)
    blacklisting_penalty = torch.mean(blacklist)
    loss_func = cross_entropy_loss + blacklisting_penalty * penalty_weight

`nn.BCELoss` with an all-zeros target contributes `-log(1 - x)` per
element (each log term clamped at `-100`, as torch does) and averages over
the elements. The tensors are embedded as flat lists of reals.
-/

/-- One element of `nn.BCELoss(outputs, zeros)`:
`-[0·log x + 1·log(1-x)]` with torch's clamp of the log at `-100`. -/
noncomputable def bce_zero_target (x : ℝ) : ℝ := -(max (Real.log (1 - x)) (-100))

/-- `criterion(outputs, desired_outputs)` for the all-zeros target: the
mean of the per-element binary cross-entropy terms. -/
noncomputable def cross_entropy_loss (outputs : List ℝ) : ℝ :=
  (outputs.map bce_zero_target).sum / outputs.length

/-- `torch.mean` of a flat tensor. -/
noncomputable def list_mean (l : List ℝ) : ℝ := l.sum / l.length

/-- `loss_func` (`main.py` lines 92-97): cross-entropy of
`errors_reduced · (1 − blacklist)` against zeros, plus the mean blacklist
score times the penalty weight. -/
noncomputable def loss_func (errors_reduced blacklist : List ℝ) (w : ℝ) : ℝ :=
  cross_entropy_loss (List.zipWith (fun e b => e * (1 - b)) errors_reduced blacklist)
    + list_mean blacklist * w

/-- The two reducer variants (`main.py` line 68). -/
inductive Reducer
  | mean
  | max

/-- The per-variant penalty weights of
`models = {'mean': (0.05, …), 'max': (0.55, …)}` (`main.py` line 68). -/
noncomputable def penalty_weight : Reducer → ℝ
  | .mean => 0.05
  | .max => 0.55

/-- C7: the training loss is `BCE(reducedError·(1−score), 0) + w·mean score`
with `w` fixed per reducer variant, the `'max'` variant's weight strictly
larger than the `'mean'` variant's; and on all-zero scores and all-zero
reduced errors the total loss is `0`. -/
theorem loss_composition (n : Nat) (hn : 0 < n) (w : ℝ) :
    penalty_weight Reducer.mean < penalty_weight Reducer.max ∧
    (∀ errs bl : List ℝ, loss_func errs bl w
      = cross_entropy_loss (List.zipWith (fun e b => e * (1 - b)) errs bl)
        + w * list_mean bl) ∧
    loss_func (List.replicate n 0) (List.replicate n 0) w = 0 := by
  refine ⟨?_, ?_, ?_⟩
  · show (0.05 : ℝ) < 0.55
    norm_num
  · intro errs bl
    unfold loss_func
    ring
  · unfold loss_func
    have hz : List.zipWith (fun e b : ℝ => e * (1 - b)) (List.replicate n 0) (List.replicate n 0)
        = List.replicate n 0 := by
      rw [List.zipWith_replicate']
      norm_num
    rw [hz]
    have hb : bce_zero_target 0 = 0 := by
      unfold bce_zero_target
      rw [sub_zero, Real.log_one]
      norm_num
    have hm : (List.replicate n (0 : ℝ)).map bce_zero_target = List.replicate n 0 := by
      rw [List.map_replicate, hb]
    unfold cross_entropy_loss list_mean
    rw [hm]
    simp

/-- Witness for C7 at batch size 2 with the `'mean'` variant's weight. -/
theorem loss_composition_witness :
    0 < 2 ∧
    (penalty_weight Reducer.mean < penalty_weight Reducer.max ∧
    (∀ errs bl : List ℝ, loss_func errs bl (penalty_weight Reducer.mean)
      = cross_entropy_loss (List.zipWith (fun e b => e * (1 - b)) errs bl)
        + penalty_weight Reducer.mean * list_mean bl) ∧
    loss_func (List.replicate 2 0) (List.replicate 2 0) (penalty_weight Reducer.mean) = 0) :=
  ⟨by norm_num, loss_composition 2 (by norm_num) (penalty_weight Reducer.mean)⟩

/-! ### Reception series stitching (`main.py` lines 126-128 and 154)

    tsch_errors = error_props(tsch_interference)
    tsch_receptions = reception_props(tsch_errors)
    ...
    reception_props_values = reception_props(torch.cat((
        tsch_errors[:args.past_window * args.sample_rate],
        error_props_values.permute(1, 0).view(-1, 1)), dim=0))

`PacketReceptionProb` lives in the external `simulation` module.
-/

/-- Modelled from the spec: `PacketReceptionProb` (the `reception_props`
module, §6 "ReceptionModel.apply(bitErrorProbability) →
receptionProbability — pure functions, no state") is missing from the
sources; it is modelled as an arbitrary pure per-slot function `f` applied
elementwise along the time axis. -/
def reception_props (f : ℚ → ℚ) (errors : List ℚ) : List ℚ := errors.map f

/-- `tsch_receptions` (`main.py` line 128): the baseline reception series
over the unrestricted simulator's error series. -/
def tsch_receptions (f : ℚ → ℚ) (tsch_errors : List ℚ) : List ℚ :=
  reception_props f tsch_errors

/-- `reception_props_values` (`main.py` line 154): the baseline error
prefix of length `pastLen` is concatenated with the per-pivot masked
error windows (flattened in pivot order by `permute(1, 0).view(-1, 1)`)
and passed through the reception model. -/
def reception_props_values (f : ℚ → ℚ) (tsch_errors : List ℚ)
    (masked_error_windows : List (List ℚ)) (pastLen : Nat) : List ℚ :=
  reception_props f (tsch_errors.take pastLen ++ masked_error_windows.flatten)

/-- C8: the stitched Reception series has length
`pastLen + (number of evaluation pivots) · futureLen`, and its first
`pastLen` samples coincide with the baseline (unrestricted) reception
series `tsch_receptions`. -/
theorem reception_stitching (f : ℚ → ℚ) (tsch_errors : List ℚ)
    (masked_error_windows : List (List ℚ)) (pastLen futureLen : Nat)
    (hbase : pastLen ≤ tsch_errors.length)
    (hfull : ∀ win ∈ masked_error_windows, win.length = futureLen) :
    (reception_props_values f tsch_errors masked_error_windows pastLen).length
      = pastLen + masked_error_windows.length * futureLen ∧
    (reception_props_values f tsch_errors masked_error_windows pastLen).take pastLen
      = (tsch_receptions f tsch_errors).take pastLen := by
  constructor
  · unfold reception_props_values reception_props
    simp only [List.length_map, List.length_append, List.length_flatten]
    have hmap : masked_error_windows.map List.length
        = List.replicate masked_error_windows.length futureLen := by
      refine List.eq_replicate_iff.mpr ⟨by simp, ?_⟩
      intro b hb
      rcases List.mem_map.mp hb with ⟨win, hwin, rfl⟩
      exact hfull win hwin
    rw [hmap, List.sum_replicate, smul_eq_mul]
    have : (tsch_errors.take pastLen).length = pastLen := List.length_take_of_le hbase
    omega
  · unfold reception_props_values tsch_receptions reception_props
    have hlen : (tsch_errors.take pastLen).length = pastLen := List.length_take_of_le hbase
    rw [← List.map_take, ← List.map_take, List.take_left' hlen]

/-- Witness for C8 with a three-sample baseline, two pivots and
two-sample future windows. -/
theorem reception_stitching_witness :
    (2 ≤ ([1, 2, 3] : List ℚ).length ∧
      (∀ win ∈ ([[4, 5], [6, 7]] : List (List ℚ)), win.length = 2)) ∧
    ((reception_props_values (fun x => x) [1, 2, 3] [[4, 5], [6, 7]] 2).length
      = 2 + ([[4, 5], [6, 7]] : List (List ℚ)).length * 2 ∧
    (reception_props_values (fun x => x) [1, 2, 3] [[4, 5], [6, 7]] 2).take 2
      = (tsch_receptions (fun x => x) [1, 2, 3]).take 2) :=
  ⟨by decide, reception_stitching (fun x => x) [1, 2, 3] [[4, 5], [6, 7]] 2 2
    (by decide) (by decide)⟩

/-! ### Normalization statistics (`main.py` lines 63, 84 and 145)

    data_mean, data_std = torch.mean(training_data), torch.std(training_data)
    ...
    past_windows_normalized = (past_windows_downsampled - data_mean) / data_std   # line 84, training
    ...
    past_windows_normalized = (past_windows_downsampled - data_mean) / data_std   # line 145, evaluation

`torch.std` is the square root of the unbiased sample variance. The
statistics are functions of the full data only through its first `cutoff`
samples (the training portion).
-/

/-- `data_mean` (`main.py` line 63): `torch.mean(training_data)` with
`training_data = data[:cutoff]`. -/
noncomputable def data_mean (data : List ℝ) (cutoff : Nat) : ℝ :=
  (data.take cutoff).sum / (data.take cutoff).length

/-- `data_std` (`main.py` line 63): `torch.std(training_data)`, the square
root of the unbiased sample variance of the training portion. -/
noncomputable def data_std (data : List ℝ) (cutoff : Nat) : ℝ :=
  Real.sqrt (((data.take cutoff).map (fun x => (x - data_mean data cutoff)^2)).sum
    / (((data.take cutoff).length : ℝ) - 1))

/-- The standardization `(x − data_mean) / data_std` shared by lines 84
and 145. -/
noncomputable def normalize (data : List ℝ) (cutoff : Nat) (x : ℝ) : ℝ :=
  (x - data_mean data cutoff) / data_std data cutoff

/-- `past_windows_normalized` inside the training loop (`main.py`
line 84). -/
noncomputable def past_windows_normalized_train (data : List ℝ) (cutoff : Nat)
    (batch : List ℝ) : List ℝ :=
  batch.map (normalize data cutoff)

/-- `past_windows_normalized` in the evaluation pass (`main.py`
line 145). -/
noncomputable def past_windows_normalized_eval (data : List ℝ) (cutoff : Nat)
    (window : List ℝ) : List ℝ :=
  window.map (normalize data cutoff)

/-- C9: `data_mean`/`data_std` are scalars depending only on the training
portion `data[:cutoff]` — replacing everything after the cutoff leaves
them unchanged — and every standardization, in every training batch and
in evaluation alike, applies `(x − data_mean)/data_std` with those same
two values. -/
theorem normalization_stats_fixed (train valid valid2 : List ℝ) (cutoff : Nat)
    (hc : cutoff ≤ train.length) :
    data_mean (train ++ valid) cutoff = data_mean (train ++ valid2) cutoff ∧
    data_std (train ++ valid) cutoff = data_std (train ++ valid2) cutoff ∧
    data_mean (train ++ valid) cutoff = data_mean train cutoff ∧
    data_std (train ++ valid) cutoff = data_std train cutoff ∧
    (∀ batch : List ℝ,
      past_windows_normalized_train (train ++ valid) cutoff batch
        = batch.map (fun x => (x - data_mean train cutoff) / data_std train cutoff)) ∧
    (∀ window : List ℝ,
      past_windows_normalized_eval (train ++ valid) cutoff window
        = past_windows_normalized_train (train ++ valid) cutoff window) := by
  have htake : ∀ other : List ℝ, (train ++ other).take cutoff = train.take cutoff :=
    fun other => List.take_append_of_le_length hc
  have hmean : ∀ other : List ℝ, data_mean (train ++ other) cutoff = data_mean train cutoff := by
    intro other
    unfold data_mean
    rw [htake]
  have hstd : ∀ other : List ℝ, data_std (train ++ other) cutoff = data_std train cutoff := by
    intro other
    unfold data_std
    rw [htake, hmean]
  refine ⟨?_, ?_, hmean valid, hstd valid, ?_, fun _ => rfl⟩
  · rw [hmean, hmean]
  · rw [hstd, hstd]
  · intro batch
    unfold past_windows_normalized_train normalize
    rw [hmean, hstd]

/-- Witness for C9 on a three-sample training series with two distinct
validation suffixes. -/
theorem normalization_stats_fixed_witness :
    2 ≤ ([1, 2, 3] : List ℝ).length ∧
    (data_mean ([1, 2, 3] ++ [5] : List ℝ) 2 = data_mean ([1, 2, 3] ++ [9] : List ℝ) 2 ∧
    data_std ([1, 2, 3] ++ [5] : List ℝ) 2 = data_std ([1, 2, 3] ++ [9] : List ℝ) 2 ∧
    data_mean ([1, 2, 3] ++ [5] : List ℝ) 2 = data_mean [1, 2, 3] 2 ∧
    data_std ([1, 2, 3] ++ [5] : List ℝ) 2 = data_std [1, 2, 3] 2 ∧
    (∀ batch : List ℝ,
      past_windows_normalized_train ([1, 2, 3] ++ [5] : List ℝ) 2 batch
        = batch.map (fun x => (x - data_mean [1, 2, 3] 2) / data_std [1, 2, 3] 2)) ∧
    (∀ window : List ℝ,
      past_windows_normalized_eval ([1, 2, 3] ++ [5] : List ℝ) 2 window
        = past_windows_normalized_train ([1, 2, 3] ++ [5] : List ℝ) 2 window)) :=
  ⟨by norm_num, normalization_stats_fixed [1, 2, 3] [5] [9] 2 (by norm_num)⟩

end ChannelQuality
